import Mathlib

attribute [local semireducible] Rat.add Rat.sub Rat.mul Rat.inv Rat.ofScientific

/-!
Verification development for the perler-bead pattern generator
(`PerlerBeadGenerator.generate` and `drawPattern`).

The generator's core pipeline is embedded shallowly:
pixel channels and grid cell channels are rationals (the source works with
IEEE doubles on integer pixel data; all the arithmetic appearing in the
claims is exact over ℚ), images and raw grids are functions from
coordinates to colors, and the legend statistics are lists built exactly
as the source builds them.
-/

namespace DouPinPin

/-- An RGB color with rational channels, as carried through the sampling and
enhancement stages (`{r, g, b}` objects in the source). -/
structure RGB where
  r : ℚ
  g : ℚ
  b : ℚ
deriving DecidableEq

/-- `Math.min(255, Math.max(0, x))` — the channel clamp used throughout. -/
def clamp255 (x : ℚ) : ℚ := min 255 (max 0 x)

/-- Per-channel clamp of a whole color. -/
def clampRGB (c : RGB) : RGB := ⟨clamp255 c.r, clamp255 c.g, clamp255 c.b⟩

/-- `bOffset = brightness * 15` (generator line 35). -/
def bOffset (level : ℤ) : ℚ := (level : ℚ) * 15

/-- The Geometry Planner (generator lines 19–32): center-crop rectangle
`(cropX, cropY, cropW, cropH)` computed from source and target dimensions. -/
def cropRect (imgW imgH targetW targetH : ℚ) : ℚ × ℚ × ℚ × ℚ :=
  let tr := targetW / targetH
  let ir := imgW / imgH
  if tr < ir then
    -- image is relatively wider: crop width, keep full height
    let cropW := imgH * tr
    ((imgW - cropW) / 2, 0, cropW, imgH)
  else
    -- image is relatively taller (or equal ratio): crop height, keep full width
    let cropH := imgW / tr
    (0, (imgH - cropH) / 2, imgW, cropH)

/-- Rounding a rational to four decimal places, as an integer number of
ten-thousandths. -/
def round4 (x : ℚ) : ℤ := round (x * 10000)

lemma cropRect_of_wider (imgW imgH targetW targetH : ℚ)
    (h : targetW / targetH < imgW / imgH) :
    cropRect imgW imgH targetW targetH =
      ((imgW - imgH * (targetW / targetH)) / 2, 0,
        imgH * (targetW / targetH), imgH) := by
  unfold cropRect
  rw [if_pos h]

lemma cropRect_of_taller (imgW imgH targetW targetH : ℚ)
    (h : ¬ targetW / targetH < imgW / imgH) :
    cropRect imgW imgH targetW targetH =
      (0, (imgH - imgW / (targetW / targetH)) / 2, imgW,
        imgW / (targetW / targetH)) := by
  unfold cropRect
  rw [if_neg h]

/-- C1: for positive source and target dimensions the crop rectangle lies in
the source bounds, its aspect ratio agrees with the target ratio to four
decimal places (indeed exactly), and the branch selected by comparing the
ratios keeps full height / centers horizontally, resp. keeps full width /
centers vertically (the tie taking the full-width branch). -/
theorem c1_cropRect_bounds_and_aspect
    (imgW imgH targetW targetH : ℚ)
    (hiw : 0 < imgW) (hih : 0 < imgH) (htw : 0 < targetW) (hth : 0 < targetH) :
    0 ≤ (cropRect imgW imgH targetW targetH).1 ∧
    0 ≤ (cropRect imgW imgH targetW targetH).2.1 ∧
    (cropRect imgW imgH targetW targetH).1 +
      (cropRect imgW imgH targetW targetH).2.2.1 ≤ imgW ∧
    (cropRect imgW imgH targetW targetH).2.1 +
      (cropRect imgW imgH targetW targetH).2.2.2 ≤ imgH ∧
    (cropRect imgW imgH targetW targetH).2.2.1 /
      (cropRect imgW imgH targetW targetH).2.2.2 = targetW / targetH ∧
    round4 ((cropRect imgW imgH targetW targetH).2.2.1 /
      (cropRect imgW imgH targetW targetH).2.2.2) =
      round4 (targetW / targetH) ∧
    (targetW / targetH < imgW / imgH →
      (cropRect imgW imgH targetW targetH).2.2.2 = imgH ∧
      (cropRect imgW imgH targetW targetH).2.1 = 0 ∧
      (cropRect imgW imgH targetW targetH).1 =
        (imgW - (cropRect imgW imgH targetW targetH).2.2.1) / 2) ∧
    (imgW / imgH ≤ targetW / targetH →
      (cropRect imgW imgH targetW targetH).2.2.1 = imgW ∧
      (cropRect imgW imgH targetW targetH).1 = 0 ∧
      (cropRect imgW imgH targetW targetH).2.1 =
        (imgH - (cropRect imgW imgH targetW targetH).2.2.2) / 2) := by
  have hih' : imgH ≠ 0 := ne_of_gt hih
  have htr : 0 < targetW / targetH := div_pos htw hth
  by_cases hc : targetW / targetH < imgW / imgH
  · rw [cropRect_of_wider imgW imgH targetW targetH hc]
    have hwlt : imgH * (targetW / targetH) < imgW := by
      have h2 := mul_lt_mul_of_pos_left hc hih
      rwa [mul_div_cancel₀ imgW hih'] at h2
    have hratio : imgH * (targetW / targetH) / imgH = targetW / targetH :=
      mul_div_cancel_left₀ _ hih'
    refine ⟨by linarith, le_refl 0, by linarith, by linarith, hratio, by
      rw [hratio], fun _ => ⟨rfl, rfl, rfl⟩, fun hle => absurd hc (not_lt.mpr hle)⟩
  · rw [cropRect_of_taller imgW imgH targetW targetH hc]
    have hle : imgW / imgH ≤ targetW / targetH := not_lt.mp hc
    have hhle : imgW / (targetW / targetH) ≤ imgH := by
      rw [div_le_iff₀ htr]
      have h2 := mul_le_mul_of_nonneg_left hle (le_of_lt hih)
      rw [mul_div_cancel₀ imgW hih'] at h2
      linarith [h2, mul_comm imgH (targetW / targetH)]
    have hhpos : 0 < imgW / (targetW / targetH) := div_pos hiw htr
    have hratio : imgW / (imgW / (targetW / targetH)) = targetW / targetH := by
      rw [div_div_eq_mul_div, mul_comm, mul_div_assoc, div_self (ne_of_gt hiw),
        mul_one]
    refine ⟨le_refl 0, by linarith, by linarith, by linarith, hratio, by
      rw [hratio], fun hlt => absurd hlt (not_lt.mpr hle), fun _ => ⟨rfl, rfl, rfl⟩⟩

/-- Witness for C1 at a concrete input (wide 4×2 source, square 1×1 target). -/
theorem c1_cropRect_bounds_and_aspect_witness :
    0 ≤ (cropRect 4 2 1 1).1 ∧ 0 ≤ (cropRect 4 2 1 1).2.1 ∧
    (cropRect 4 2 1 1).1 + (cropRect 4 2 1 1).2.2.1 ≤ 4 ∧
    (cropRect 4 2 1 1).2.1 + (cropRect 4 2 1 1).2.2.2 ≤ 2 ∧
    (cropRect 4 2 1 1).2.2.1 / (cropRect 4 2 1 1).2.2.2 = 1 / 1 ∧
    round4 ((cropRect 4 2 1 1).2.2.1 / (cropRect 4 2 1 1).2.2.2) =
      round4 (1 / 1) ∧
    ((1 : ℚ) / 1 < 4 / 2 →
      (cropRect 4 2 1 1).2.2.2 = 2 ∧ (cropRect 4 2 1 1).2.1 = 0 ∧
      (cropRect 4 2 1 1).1 = (4 - (cropRect 4 2 1 1).2.2.1) / 2) ∧
    ((4 : ℚ) / 2 ≤ 1 / 1 →
      (cropRect 4 2 1 1).2.2.1 = 4 ∧ (cropRect 4 2 1 1).1 = 0 ∧
      (cropRect 4 2 1 1).2.1 = (2 - (cropRect 4 2 1 1).2.2.2) / 2) :=
  c1_cropRect_bounds_and_aspect 4 2 1 1 (by norm_num) (by norm_num)
    (by norm_num) (by norm_num)

/-! ### The Sampler (generator lines 37–102) -/

/-- A pixel buffer, indexed `(y, x)` like `origData[(y * cw + x) * 4]`. -/
def Img : Type := Nat → Nat → RGB

/-- `blockW = cw / targetW` (generator line 74). -/
def blockW (cw targetW : ℕ) : ℚ := (cw : ℚ) / (targetW : ℚ)

/-- `blockH = ch / targetH` (generator line 75). -/
def blockH (ch targetH : ℕ) : ℚ := (ch : ℚ) / (targetH : ℚ)

/-- `startY = Math.floor(r * blockH)` (generator line 83). -/
def startY (ch targetH r : ℕ) : ℕ := ⌊(r : ℚ) * blockH ch targetH⌋₊

/-- `endY = Math.min(Math.floor((r + 1) * blockH), ch)` (generator line 84). -/
def endY (ch targetH r : ℕ) : ℕ :=
  min ⌊((r : ℚ) + 1) * blockH ch targetH⌋₊ ch

/-- `startX = Math.floor(c * blockW)` (generator line 85). -/
def startX (cw targetW c : ℕ) : ℕ := ⌊(c : ℚ) * blockW cw targetW⌋₊

/-- `endX = Math.min(Math.floor((c + 1) * blockW), cw)` (generator line 86). -/
def endX (cw targetW c : ℕ) : ℕ :=
  min ⌊((c : ℚ) + 1) * blockW cw targetW⌋₊ cw

/-- The number of pixels visited by the two nested block loops
(generator lines 88–96, `count`). -/
def blockCount (cw ch targetW targetH r c : ℕ) : ℕ :=
  (endY ch targetH r - startY ch targetH r) *
    (endX cw targetW c - startX cw targetW c)

/-- One channel's block sum: the nested loops of generator lines 88–96,
accumulating `Math.min(255, Math.max(0, origData[idx] + bOffset))`. -/
def blockSum (img : Img) (cw ch targetW targetH : ℕ) (bOff : ℚ)
    (f : RGB → ℚ) (r c : ℕ) : ℚ :=
  ∑ y ∈ Finset.Ico (startY ch targetH r) (endY ch targetH r),
    ∑ x ∈ Finset.Ico (startX cw targetW c) (endX cw targetW c),
      clamp255 (f (img y x) + bOff)

/-- One cell of the average-sampling raw grid (generator lines 81–99):
per-channel block sum divided by the pixel count, with `count = 0`
replaced by `1` (line 98). -/
def avgCell (img : Img) (cw ch targetW targetH : ℕ) (bOff : ℚ)
    (r c : ℕ) : RGB :=
  let count := blockCount cw ch targetW targetH r c
  let d : ℚ := if count = 0 then 1 else (count : ℚ)
  ⟨blockSum img cw ch targetW targetH bOff (fun p => p.r) r c / d,
    blockSum img cw ch targetW targetH bOff (fun p => p.g) r c / d,
    blockSum img cw ch targetW targetH bOff (fun p => p.b) r c / d⟩

/-- One cell of the nearest-sampling grid (generator lines 50–56): the
resampled pixel for the cell, brightness-shifted and clamped per channel.
The single-pixel resample produced by the canvas is the external `data`. -/
def nearestCell (data : Img) (bOff : ℚ) (r c : ℕ) : RGB :=
  ⟨clamp255 ((data r c).r + bOff), clamp255 ((data r c).g + bOff),
    clamp255 ((data r c).b + bOff)⟩

/-- The four quadrant colors of the end-to-end scenario. -/
def red : RGB := ⟨255, 0, 0⟩

/-- Green quadrant color. -/
def green : RGB := ⟨0, 255, 0⟩

/-- Blue quadrant color. -/
def blue : RGB := ⟨0, 0, 255⟩

/-- White quadrant color. -/
def white : RGB := ⟨255, 255, 255⟩

/-- The 2×2 scenario source image: red/green over blue/white. -/
def img2 : Img := fun y x =>
  if y = 0 then (if x = 0 then red else green)
  else (if x = 0 then blue else white)

/-- A block is nonempty in one axis as soon as the (truncated) crop extent
is at least the target extent: then the per-cell stride is at least one. -/
lemma startY_lt_endY (ch targetH r : ℕ) (h : targetH ≤ ch)
    (hth : 0 < targetH) (hr : r < targetH) :
    startY ch targetH r < endY ch targetH r := by
  have hth' : (0 : ℚ) < (targetH : ℚ) := by exact_mod_cast hth
  have hbh : (1 : ℚ) ≤ blockH ch targetH := by
    rw [blockH, le_div_iff₀ hth', one_mul]
    exact_mod_cast h
  have hbh0 : (0 : ℚ) ≤ blockH ch targetH := le_trans zero_le_one hbh
  have h0 : (0 : ℚ) ≤ (r : ℚ) * blockH ch targetH := by positivity
  have h1 : (r : ℚ) * blockH ch targetH + 1 ≤
      ((r : ℚ) + 1) * blockH ch targetH := by nlinarith
  have h2 : startY ch targetH r + 1 ≤ ⌊((r : ℚ) + 1) * blockH ch targetH⌋₊ := by
    have hm := Nat.floor_mono h1
    rwa [Nat.floor_add_one h0] at hm
  have h3 : ((r : ℚ) + 1) * blockH ch targetH ≤ (ch : ℚ) := by
    have hr1 : ((r : ℚ) + 1) ≤ (targetH : ℚ) := by exact_mod_cast hr
    have hle : ((r : ℚ) + 1) * blockH ch targetH ≤
        (targetH : ℚ) * blockH ch targetH :=
      mul_le_mul_of_nonneg_right hr1 hbh0
    have hcancel : (targetH : ℚ) * blockH ch targetH = (ch : ℚ) := by
      rw [blockH, mul_comm, div_mul_cancel₀ _ (ne_of_gt hth')]
    rwa [hcancel] at hle
  have h4 : ⌊((r : ℚ) + 1) * blockH ch targetH⌋₊ ≤ ch := by
    have hm := Nat.floor_mono h3
    rwa [Nat.floor_natCast] at hm
  rw [endY, min_eq_left h4]
  omega

/-- The horizontal counterpart of `startY_lt_endY`. -/
lemma startX_lt_endX (cw targetW c : ℕ) (h : targetW ≤ cw)
    (htw : 0 < targetW) (hc : c < targetW) :
    startX cw targetW c < endX cw targetW c :=
  startY_lt_endY cw targetW c h htw hc

/-- An empty block contributes an empty sum. -/
lemma blockSum_eq_zero_of_count_eq_zero (img : Img)
    (cw ch targetW targetH : ℕ) (bOff : ℚ) (f : RGB → ℚ) (r c : ℕ)
    (h : blockCount cw ch targetW targetH r c = 0) :
    blockSum img cw ch targetW targetH bOff f r c = 0 := by
  rw [blockCount, Nat.mul_eq_zero] at h
  rw [blockSum]
  rcases h with h | h
  · rw [Finset.Ico_eq_empty (by omega)]
    simp
  · have hx : Finset.Ico (startX cw targetW c) (endX cw targetW c) = ∅ :=
      Finset.Ico_eq_empty (by omega)
    simp [hx]

/-- C2: under average sampling, the cell `(r, c)` averages exactly the source
pixels whose rows lie in `[⌊r·blockH⌋, min ⌊(r+1)·blockH⌋ ch)` and whose
columns lie in `[⌊c·blockW⌋, min ⌊(c+1)·blockW⌋ cw)`, the divisor being the
cardinality of that pixel set; and the 2×2 red/green/blue/white source at
target 2×2 with brightness 0 reproduces the four source colors exactly. -/
theorem c2_avg_block_bounds_and_scenario :
    (∀ (img : Img) (cw ch targetW targetH : ℕ) (bOff : ℚ) (r c : ℕ),
      blockCount cw ch targetW targetH r c ≠ 0 →
      avgCell img cw ch targetW targetH bOff r c =
        ⟨(∑ p ∈ Finset.Ico ⌊(r : ℚ) * ((ch : ℚ) / (targetH : ℚ))⌋₊
              (min ⌊((r : ℚ) + 1) * ((ch : ℚ) / (targetH : ℚ))⌋₊ ch) ×ˢ
            Finset.Ico ⌊(c : ℚ) * ((cw : ℚ) / (targetW : ℚ))⌋₊
              (min ⌊((c : ℚ) + 1) * ((cw : ℚ) / (targetW : ℚ))⌋₊ cw),
            clamp255 ((img p.1 p.2).r + bOff)) /
          ((Finset.Ico ⌊(r : ℚ) * ((ch : ℚ) / (targetH : ℚ))⌋₊
              (min ⌊((r : ℚ) + 1) * ((ch : ℚ) / (targetH : ℚ))⌋₊ ch) ×ˢ
            Finset.Ico ⌊(c : ℚ) * ((cw : ℚ) / (targetW : ℚ))⌋₊
              (min ⌊((c : ℚ) + 1) * ((cw : ℚ) / (targetW : ℚ))⌋₊ cw)).card : ℚ),
          (∑ p ∈ Finset.Ico ⌊(r : ℚ) * ((ch : ℚ) / (targetH : ℚ))⌋₊
              (min ⌊((r : ℚ) + 1) * ((ch : ℚ) / (targetH : ℚ))⌋₊ ch) ×ˢ
            Finset.Ico ⌊(c : ℚ) * ((cw : ℚ) / (targetW : ℚ))⌋₊
              (min ⌊((c : ℚ) + 1) * ((cw : ℚ) / (targetW : ℚ))⌋₊ cw),
            clamp255 ((img p.1 p.2).g + bOff)) /
          ((Finset.Ico ⌊(r : ℚ) * ((ch : ℚ) / (targetH : ℚ))⌋₊
              (min ⌊((r : ℚ) + 1) * ((ch : ℚ) / (targetH : ℚ))⌋₊ ch) ×ˢ
            Finset.Ico ⌊(c : ℚ) * ((cw : ℚ) / (targetW : ℚ))⌋₊
              (min ⌊((c : ℚ) + 1) * ((cw : ℚ) / (targetW : ℚ))⌋₊ cw)).card : ℚ),
          (∑ p ∈ Finset.Ico ⌊(r : ℚ) * ((ch : ℚ) / (targetH : ℚ))⌋₊
              (min ⌊((r : ℚ) + 1) * ((ch : ℚ) / (targetH : ℚ))⌋₊ ch) ×ˢ
            Finset.Ico ⌊(c : ℚ) * ((cw : ℚ) / (targetW : ℚ))⌋₊
              (min ⌊((c : ℚ) + 1) * ((cw : ℚ) / (targetW : ℚ))⌋₊ cw),
            clamp255 ((img p.1 p.2).b + bOff)) /
          ((Finset.Ico ⌊(r : ℚ) * ((ch : ℚ) / (targetH : ℚ))⌋₊
              (min ⌊((r : ℚ) + 1) * ((ch : ℚ) / (targetH : ℚ))⌋₊ ch) ×ˢ
            Finset.Ico ⌊(c : ℚ) * ((cw : ℚ) / (targetW : ℚ))⌋₊
              (min ⌊((c : ℚ) + 1) * ((cw : ℚ) / (targetW : ℚ))⌋₊ cw)).card : ℚ)⟩) ∧
    avgCell img2 2 2 2 2 (bOffset 0) 0 0 = red ∧
    avgCell img2 2 2 2 2 (bOffset 0) 0 1 = green ∧
    avgCell img2 2 2 2 2 (bOffset 0) 1 0 = blue ∧
    avgCell img2 2 2 2 2 (bOffset 0) 1 1 = white := by
  constructor
  · intro img cw ch targetW targetH bOff r c hne
    have hcard : (Finset.Ico (startY ch targetH r) (endY ch targetH r) ×ˢ
        Finset.Ico (startX cw targetW c) (endX cw targetW c)).card =
        blockCount cw ch targetW targetH r c := by
      rw [Finset.card_product, Nat.card_Ico, Nat.card_Ico, blockCount]
    have hsum : ∀ f : RGB → ℚ,
        (∑ p ∈ Finset.Ico (startY ch targetH r) (endY ch targetH r) ×ˢ
            Finset.Ico (startX cw targetW c) (endX cw targetW c),
          clamp255 (f (img p.1 p.2) + bOff)) =
        blockSum img cw ch targetW targetH bOff f r c := by
      intro f
      rw [blockSum, Finset.sum_product]
    simp only [avgCell, if_neg hne]
    have hY : Finset.Ico ⌊(r : ℚ) * ((ch : ℚ) / (targetH : ℚ))⌋₊
        (min ⌊((r : ℚ) + 1) * ((ch : ℚ) / (targetH : ℚ))⌋₊ ch) =
        Finset.Ico (startY ch targetH r) (endY ch targetH r) := rfl
    have hX : Finset.Ico ⌊(c : ℚ) * ((cw : ℚ) / (targetW : ℚ))⌋₊
        (min ⌊((c : ℚ) + 1) * ((cw : ℚ) / (targetW : ℚ))⌋₊ cw) =
        Finset.Ico (startX cw targetW c) (endX cw targetW c) := rfl
    rw [hY, hX]
    rw [hsum (fun p => p.r), hsum (fun p => p.g), hsum (fun p => p.b), hcard]
  · exact ⟨by decide, by decide, by decide, by decide⟩

/-- Witness for C2's quantified part at a concrete nonempty block. -/
theorem c2_avg_block_bounds_and_scenario_witness :
    blockCount 2 2 2 2 0 0 ≠ 0 ∧
    avgCell img2 2 2 2 2 (bOffset 0) 0 0 =
      ⟨(∑ p ∈ Finset.Ico ⌊(0 : ℚ) * ((2 : ℚ) / (2 : ℚ))⌋₊
            (min ⌊((0 : ℚ) + 1) * ((2 : ℚ) / (2 : ℚ))⌋₊ 2) ×ˢ
          Finset.Ico ⌊(0 : ℚ) * ((2 : ℚ) / (2 : ℚ))⌋₊
            (min ⌊((0 : ℚ) + 1) * ((2 : ℚ) / (2 : ℚ))⌋₊ 2),
          clamp255 ((img2 p.1 p.2).r + bOffset 0)) /
        ((Finset.Ico ⌊(0 : ℚ) * ((2 : ℚ) / (2 : ℚ))⌋₊
            (min ⌊((0 : ℚ) + 1) * ((2 : ℚ) / (2 : ℚ))⌋₊ 2) ×ˢ
          Finset.Ico ⌊(0 : ℚ) * ((2 : ℚ) / (2 : ℚ))⌋₊
            (min ⌊((0 : ℚ) + 1) * ((2 : ℚ) / (2 : ℚ))⌋₊ 2)).card : ℚ),
        (∑ p ∈ Finset.Ico ⌊(0 : ℚ) * ((2 : ℚ) / (2 : ℚ))⌋₊
            (min ⌊((0 : ℚ) + 1) * ((2 : ℚ) / (2 : ℚ))⌋₊ 2) ×ˢ
          Finset.Ico ⌊(0 : ℚ) * ((2 : ℚ) / (2 : ℚ))⌋₊
            (min ⌊((0 : ℚ) + 1) * ((2 : ℚ) / (2 : ℚ))⌋₊ 2),
          clamp255 ((img2 p.1 p.2).g + bOffset 0)) /
        ((Finset.Ico ⌊(0 : ℚ) * ((2 : ℚ) / (2 : ℚ))⌋₊
            (min ⌊((0 : ℚ) + 1) * ((2 : ℚ) / (2 : ℚ))⌋₊ 2) ×ˢ
          Finset.Ico ⌊(0 : ℚ) * ((2 : ℚ) / (2 : ℚ))⌋₊
            (min ⌊((0 : ℚ) + 1) * ((2 : ℚ) / (2 : ℚ))⌋₊ 2)).card : ℚ),
        (∑ p ∈ Finset.Ico ⌊(0 : ℚ) * ((2 : ℚ) / (2 : ℚ))⌋₊
            (min ⌊((0 : ℚ) + 1) * ((2 : ℚ) / (2 : ℚ))⌋₊ 2) ×ˢ
          Finset.Ico ⌊(0 : ℚ) * ((2 : ℚ) / (2 : ℚ))⌋₊
            (min ⌊((0 : ℚ) + 1) * ((2 : ℚ) / (2 : ℚ))⌋₊ 2),
          clamp255 ((img2 p.1 p.2).b + bOffset 0)) /
        ((Finset.Ico ⌊(0 : ℚ) * ((2 : ℚ) / (2 : ℚ))⌋₊
            (min ⌊((0 : ℚ) + 1) * ((2 : ℚ) / (2 : ℚ))⌋₊ 2) ×ˢ
          Finset.Ico ⌊(0 : ℚ) * ((2 : ℚ) / (2 : ℚ))⌋₊
            (min ⌊((0 : ℚ) + 1) * ((2 : ℚ) / (2 : ℚ))⌋₊ 2)).card : ℚ)⟩ :=
  ⟨by decide, c2_avg_block_bounds_and_scenario.1 img2 2 2 2 2 (bOffset 0) 0 0
    (by decide)⟩

/-- C3 (counterexample to the claim as stated): a uniform all-white source
whose truncated crop is a single pixel, sampled at a 2×2 target, yields a
black cell at `(0, 0)` — the block there is empty, so the fallback divisor
produces `0`, not `clamp(C + 0)` = white. -/
theorem c3_counterexample :
    avgCell (fun _ _ => white) 1 1 2 2 (bOffset 0) 0 0 ≠
      clampRGB ⟨white.r + bOffset 0, white.g + bOffset 0,
        white.b + bOffset 0⟩ := by
  decide

/-- C3 (amended): for a uniform-color source whose truncated crop dimensions
are at least the target dimensions — so every block is nonempty — every raw
cell of average sampling equals `clamp(C + 15·level)` per channel,
independent of the grid dimensions. -/
theorem c3_uniform_average_amended (C : RGB) (cw ch targetW targetH : ℕ)
    (level : ℤ) (r c : ℕ)
    (hw : targetW ≤ cw) (hh : targetH ≤ ch)
    (htw : 0 < targetW) (hth : 0 < targetH)
    (hr : r < targetH) (hc : c < targetW) :
    avgCell (fun _ _ => C) cw ch targetW targetH (bOffset level) r c =
      clampRGB ⟨C.r + bOffset level, C.g + bOffset level,
        C.b + bOffset level⟩ := by
  have hy := startY_lt_endY ch targetH r hh hth hr
  have hx := startX_lt_endX cw targetW c hw htw hc
  have hcount : blockCount cw ch targetW targetH r c ≠ 0 := by
    rw [blockCount]
    exact Nat.mul_ne_zero (by omega) (by omega)
  have hcountQ : ((blockCount cw ch targetW targetH r c : ℕ) : ℚ) ≠ 0 :=
    Nat.cast_ne_zero.mpr hcount
  have hsum : ∀ f : RGB → ℚ,
      blockSum (fun _ _ => C) cw ch targetW targetH (bOffset level) f r c =
        (blockCount cw ch targetW targetH r c : ℚ) *
          clamp255 (f C + bOffset level) := by
    intro f
    rw [blockSum]
    simp only [Finset.sum_const, Nat.card_Ico, nsmul_eq_mul]
    rw [blockCount]
    push_cast
    ring
  simp only [avgCell, if_neg hcount, hsum]
  rw [clampRGB]
  simp only [RGB.mk.injEq]
  refine ⟨?_, ?_, ?_⟩ <;>
    exact mul_div_cancel_left₀ _ hcountQ

/-- Witness for C3's amended theorem at a concrete input: a uniform red 2×2
crop, 2×2 target, brightness level 1. -/
theorem c3_uniform_average_amended_witness :
    (2 : ℕ) ≤ 2 ∧ (2 : ℕ) ≤ 2 ∧ (0 : ℕ) < 2 ∧ (0 : ℕ) < 2 ∧
    (1 : ℕ) < 2 ∧ (1 : ℕ) < 2 ∧
    avgCell (fun _ _ => red) 2 2 2 2 (bOffset 1) 1 1 =
      clampRGB ⟨red.r + bOffset 1, red.g + bOffset 1, red.b + bOffset 1⟩ :=
  ⟨le_refl 2, le_refl 2, by omega, by omega, by omega, by omega,
    c3_uniform_average_amended red 2 2 2 2 1 1 1 (le_refl 2) (le_refl 2)
      (by omega) (by omega) (by omega) (by omega)⟩

/-- C8: the only special-casing in block averaging is the zero-count
fallback: an empty block yields the zero color (sum `0` divided by the
substituted divisor `1`), and a nonempty block is divided by its true pixel
count. -/
theorem c8_empty_block_fallback :
    (∀ (img : Img) (cw ch targetW targetH : ℕ) (bOff : ℚ) (r c : ℕ),
      blockCount cw ch targetW targetH r c = 0 →
      avgCell img cw ch targetW targetH bOff r c = ⟨0, 0, 0⟩) ∧
    (∀ (img : Img) (cw ch targetW targetH : ℕ) (bOff : ℚ) (r c : ℕ),
      blockCount cw ch targetW targetH r c ≠ 0 →
      avgCell img cw ch targetW targetH bOff r c =
        ⟨blockSum img cw ch targetW targetH bOff (fun p => p.r) r c /
            (blockCount cw ch targetW targetH r c : ℚ),
          blockSum img cw ch targetW targetH bOff (fun p => p.g) r c /
            (blockCount cw ch targetW targetH r c : ℚ),
          blockSum img cw ch targetW targetH bOff (fun p => p.b) r c /
            (blockCount cw ch targetW targetH r c : ℚ)⟩) := by
  constructor
  · intro img cw ch targetW targetH bOff r c h
    simp only [avgCell, if_pos h,
      blockSum_eq_zero_of_count_eq_zero img cw ch targetW targetH bOff _ r c h]
    norm_num
  · intro img cw ch targetW targetH bOff r c h
    simp only [avgCell, if_neg h]

/-- Witness for C8: the degenerate 1×1-crop/2×2-target block at `(0, 0)` is
empty and yields the zero color; the 2×2-crop/2×2-target block at `(0, 0)`
is nonempty and is divided by its true count. -/
theorem c8_empty_block_fallback_witness :
    blockCount 1 1 2 2 0 0 = 0 ∧
    avgCell (fun _ _ => white) 1 1 2 2 (bOffset 0) 0 0 = ⟨0, 0, 0⟩ ∧
    blockCount 2 2 2 2 0 0 ≠ 0 ∧
    avgCell img2 2 2 2 2 (bOffset 0) 0 0 =
      ⟨blockSum img2 2 2 2 2 (bOffset 0) (fun p => p.r) 0 0 /
          (blockCount 2 2 2 2 0 0 : ℚ),
        blockSum img2 2 2 2 2 (bOffset 0) (fun p => p.g) 0 0 /
          (blockCount 2 2 2 2 0 0 : ℚ),
        blockSum img2 2 2 2 2 (bOffset 0) (fun p => p.b) 0 0 /
          (blockCount 2 2 2 2 0 0 : ℚ)⟩ :=
  ⟨by decide,
    c8_empty_block_fallback.1 (fun _ _ => white) 1 1 2 2 (bOffset 0) 0 0
      (by decide),
    by decide,
    c8_empty_block_fallback.2 img2 2 2 2 2 (bOffset 0) 0 0 (by decide)⟩

/-! ### The Gradient Enhancer (generator lines 104–169) -/

/-- The existing axis-aligned neighbors of cell `(r, c)` in a `rows × cols`
raw grid, in the source's direction order up, down, left, right
(generator lines 114–125), each guarded by the source's
`nr >= 0 && nr < targetH && nc >= 0 && nc < targetW` bounds check. -/
def nbrs (g : Img) (rows cols r c : ℕ) : List RGB :=
  (if 1 ≤ r ∧ r - 1 < rows ∧ c < cols then [g (r - 1) c] else []) ++
  (if r + 1 < rows ∧ c < cols then [g (r + 1) c] else []) ++
  (if 1 ≤ c ∧ c - 1 < cols ∧ r < rows then [g r (c - 1)] else []) ++
  (if c + 1 < cols ∧ r < rows then [g r (c + 1)] else [])

/-- The four neighbor slots with every missing neighbor replaced by the
center color (the hypothetical full kernel of the claim). -/
def nbrsFilled (g : Img) (rows cols r c : ℕ) : List RGB :=
  [if 1 ≤ r ∧ r - 1 < rows ∧ c < cols then g (r - 1) c else g r c,
   if r + 1 < rows ∧ c < cols then g (r + 1) c else g r c,
   if 1 ≤ c ∧ c - 1 < cols ∧ r < rows then g r (c - 1) else g r c,
   if c + 1 < cols ∧ r < rows then g r (c + 1) else g r c]

/-- Per-neighbor L1 color distance `|Δr| + |Δg| + |Δb|`
(generator lines 120–122). -/
def l1dist (a b : RGB) : ℚ := |a.r - b.r| + |a.g - b.g| + |a.b - b.b|

/-- `diffSum` accumulated over the existing neighbors. -/
def diffSum (g : Img) (rows cols r c : ℕ) : ℚ :=
  ((nbrs g rows cols r c).map (l1dist (g r c))).sum

/-- `neighbors`, the number of existing neighbors. -/
def nbrCount (g : Img) (rows cols r c : ℕ) : ℕ :=
  (nbrs g rows cols r c).length

/-- `avgDiff = neighbors > 0 ? diffSum / neighbors : 0`
(generator line 127). -/
def avgDiff (g : Img) (rows cols r c : ℕ) : ℚ :=
  if 0 < nbrCount g rows cols r c then
    diffSum g rows cols r c / (nbrCount g rows cols r c : ℚ)
  else 0

/-- One cell of the Gradient Enhancer's output (generator lines 108–166):
flat cells (`avgDiff < 15`) pass through; otherwise the unsharp-mask kernel
with center weight `2.2`, existing-neighbor weight `-0.3`, and
center-compensation for missing neighbors, clamped per channel. -/
def enhanceCell (g : Img) (rows cols r c : ℕ) : RGB :=
  let center := g r c
  if avgDiff g rows cols r c < 15 then center
  else
    let ns := nbrs g rows cols r c
    let missing : ℕ := 4 - ns.length
    ⟨clamp255 (center.r * 2.2 + (ns.map (fun n => n.r * (-0.3))).sum +
        center.r * ((missing : ℚ) * (-0.3))),
      clamp255 (center.g * 2.2 + (ns.map (fun n => n.g * (-0.3))).sum +
        center.g * ((missing : ℚ) * (-0.3))),
      clamp255 (center.b * 2.2 + (ns.map (fun n => n.b * (-0.3))).sum +
        center.b * ((missing : ℚ) * (-0.3)))⟩

/-- The full enhanced grid, built row by row like `enhancedGrid` in the
source (generator lines 105–169). -/
def enhancedGrid (g : Img) (rows cols : ℕ) : List (List RGB) :=
  (List.range rows).map (fun r =>
    (List.range cols).map (fun c => enhanceCell g rows cols r c))

/-- Channel-wise comparison of two colors. -/
def rgbLe (a b : RGB) : Prop := a.r ≤ b.r ∧ a.g ≤ b.g ∧ a.b ≤ b.b

instance rgbLe.decidable (a b : RGB) : Decidable (rgbLe a b) := by
  unfold rgbLe
  exact inferInstance

lemma sum_map_mul_const (l : List RGB) (f : RGB → ℚ) (a : ℚ) :
    (l.map (fun n => f n * a)).sum = (l.map f).sum * a := by
  induction l with
  | nil => simp
  | cons x xs ih =>
    simp only [List.map_cons, List.sum_cons, ih]
    ring

/-- Summing a channel over the filled neighbor slots equals the sum over the
existing neighbors plus the center channel once per missing neighbor. -/
lemma nbrsFilled_sum (g : Img) (rows cols r c : ℕ) (f : RGB → ℚ) :
    ((nbrsFilled g rows cols r c).map f).sum =
      ((nbrs g rows cols r c).map f).sum +
        ((4 - (nbrs g rows cols r c).length : ℕ) : ℚ) * f (g r c) := by
  unfold nbrs nbrsFilled
  split_ifs <;> simp <;> ring

/-- C4: when the mean L1 distance to the existing neighbors is strictly
below 15 (zero when there are no neighbors), the Gradient Enhancer passes
the center color through unchanged. -/
theorem c4_flat_region_passthrough (g : Img) (rows cols r c : ℕ)
    (h : avgDiff g rows cols r c < 15) :
    enhanceCell g rows cols r c = g r c := by
  simp only [enhanceCell, if_pos h]

/-- Witness for C4: a 1×1 grid has no neighbors, `avgDiff = 0 < 15`, and the
cell passes through. -/
theorem c4_flat_region_passthrough_witness :
    avgDiff (fun _ _ => red) 1 1 0 0 < 15 ∧
    enhanceCell (fun _ _ => red) 1 1 0 0 = (fun _ _ => red) 0 0 :=
  ⟨by decide, c4_flat_region_passthrough (fun _ _ => red) 1 1 0 0 (by decide)⟩

/-- C5: when `avgDiff ≥ 15`, the enhanced cell is the clamp of
`2.2·center − 0.3·(sum of existing neighbors) − 0.3·missing·center`, and
this equals the full 4-neighbor kernel with every missing neighbor replaced
by the center color. -/
theorem c5_unsharp_kernel (g : Img) (rows cols r c : ℕ)
    (h : 15 ≤ avgDiff g rows cols r c) :
    enhanceCell g rows cols r c =
      ⟨clamp255 (2.2 * (g r c).r -
          0.3 * ((nbrs g rows cols r c).map (fun n => n.r)).sum -
          0.3 * ((4 - (nbrs g rows cols r c).length : ℕ) : ℚ) * (g r c).r),
        clamp255 (2.2 * (g r c).g -
          0.3 * ((nbrs g rows cols r c).map (fun n => n.g)).sum -
          0.3 * ((4 - (nbrs g rows cols r c).length : ℕ) : ℚ) * (g r c).g),
        clamp255 (2.2 * (g r c).b -
          0.3 * ((nbrs g rows cols r c).map (fun n => n.b)).sum -
          0.3 * ((4 - (nbrs g rows cols r c).length : ℕ) : ℚ) * (g r c).b)⟩ ∧
    enhanceCell g rows cols r c =
      clampRGB ⟨2.2 * (g r c).r -
          0.3 * ((nbrsFilled g rows cols r c).map (fun n => n.r)).sum,
        2.2 * (g r c).g -
          0.3 * ((nbrsFilled g rows cols r c).map (fun n => n.g)).sum,
        2.2 * (g r c).b -
          0.3 * ((nbrsFilled g rows cols r c).map (fun n => n.b)).sum⟩ := by
  have hn : ¬ avgDiff g rows cols r c < 15 := not_lt.mpr h
  constructor
  · simp only [enhanceCell, if_neg hn, RGB.mk.injEq]
    refine ⟨congrArg clamp255 ?_, congrArg clamp255 ?_,
      congrArg clamp255 ?_⟩ <;>
    · rw [sum_map_mul_const]
      ring
  · simp only [enhanceCell, if_neg hn, clampRGB, RGB.mk.injEq]
    refine ⟨congrArg clamp255 ?_, congrArg clamp255 ?_,
      congrArg clamp255 ?_⟩ <;>
    · rw [sum_map_mul_const, nbrsFilled_sum]
      ring

/-- Witness for C5: the left cell of the 1×2 grid `[black, white]` has
`avgDiff = 765 ≥ 15` and is enhanced accordingly. -/
theorem c5_unsharp_kernel_witness :
    (15 : ℚ) ≤ avgDiff (fun _ x => if x = 0 then ⟨0, 0, 0⟩ else white) 1 2 0 0 ∧
    enhanceCell (fun _ x => if x = 0 then ⟨0, 0, 0⟩ else white) 1 2 0 0 =
      clampRGB
        ⟨2.2 * ((fun _ x => if x = 0 then (⟨0, 0, 0⟩ : RGB) else white) 0 0).r -
            0.3 * ((nbrsFilled (fun _ x => if x = 0 then ⟨0, 0, 0⟩ else white)
              1 2 0 0).map (fun n => n.r)).sum,
          2.2 * ((fun _ x => if x = 0 then (⟨0, 0, 0⟩ : RGB) else white) 0 0).g -
            0.3 * ((nbrsFilled (fun _ x => if x = 0 then ⟨0, 0, 0⟩ else white)
              1 2 0 0).map (fun n => n.g)).sum,
          2.2 * ((fun _ x => if x = 0 then (⟨0, 0, 0⟩ : RGB) else white) 0 0).b -
            0.3 * ((nbrsFilled (fun _ x => if x = 0 then ⟨0, 0, 0⟩ else white)
              1 2 0 0).map (fun n => n.b)).sum⟩ :=
  ⟨by decide,
    (c5_unsharp_kernel (fun _ x => if x = 0 then ⟨0, 0, 0⟩ else white)
      1 2 0 0 (by decide)).2⟩

/-- C9: the Gradient Enhancer builds a fresh grid of the same `rows × cols`
shape whose every cell is `enhanceCell` of the unmodified raw grid, and each
output cell depends only on the raw values of its center and existing
axis-aligned neighbors — never on other enhanced cells. -/
theorem c9_enhancer_fresh_and_local :
    (∀ (g : Img) (rows cols : ℕ), (enhancedGrid g rows cols).length = rows) ∧
    (∀ (g : Img) (rows cols r : ℕ)
      (hr : r < (enhancedGrid g rows cols).length),
      ((enhancedGrid g rows cols).get ⟨r, hr⟩).length = cols) ∧
    (∀ (g : Img) (rows cols r c : ℕ)
      (hr : r < (enhancedGrid g rows cols).length)
      (hc : c < ((enhancedGrid g rows cols).get ⟨r, hr⟩).length),
      ((enhancedGrid g rows cols).get ⟨r, hr⟩).get ⟨c, hc⟩ =
        enhanceCell g rows cols r c) ∧
    (∀ (g g' : Img) (rows cols r c : ℕ),
      g r c = g' r c →
      (1 ≤ r → g (r - 1) c = g' (r - 1) c) →
      (r + 1 < rows → g (r + 1) c = g' (r + 1) c) →
      (1 ≤ c → g r (c - 1) = g' r (c - 1)) →
      (c + 1 < cols → g r (c + 1) = g' r (c + 1)) →
      enhanceCell g rows cols r c = enhanceCell g' rows cols r c) := by
  refine ⟨?_, ?_, ?_, ?_⟩
  · intro g rows cols
    simp [enhancedGrid]
  · intro g rows cols r hr
    simp [enhancedGrid]
  · intro g rows cols r c hr hc
    simp [enhancedGrid]
  · intro g g' rows cols r c hcen hup hdown hleft hright
    have e1 : (if 1 ≤ r ∧ r - 1 < rows ∧ c < cols then [g (r - 1) c] else []) =
        (if 1 ≤ r ∧ r - 1 < rows ∧ c < cols then [g' (r - 1) c] else []) := by
      split_ifs with hcond
      · rw [hup hcond.1]
      · rfl
    have e2 : (if r + 1 < rows ∧ c < cols then [g (r + 1) c] else []) =
        (if r + 1 < rows ∧ c < cols then [g' (r + 1) c] else []) := by
      split_ifs with hcond
      · rw [hdown hcond.1]
      · rfl
    have e3 : (if 1 ≤ c ∧ c - 1 < cols ∧ r < rows then [g r (c - 1)] else []) =
        (if 1 ≤ c ∧ c - 1 < cols ∧ r < rows then [g' r (c - 1)] else []) := by
      split_ifs with hcond
      · rw [hleft hcond.1]
      · rfl
    have e4 : (if c + 1 < cols ∧ r < rows then [g r (c + 1)] else []) =
        (if c + 1 < cols ∧ r < rows then [g' r (c + 1)] else []) := by
      split_ifs with hcond
      · rw [hright hcond.1]
      · rfl
    have hnb : nbrs g rows cols r c = nbrs g' rows cols r c := by
      unfold nbrs
      rw [e1, e2, e3, e4]
    have havg : avgDiff g rows cols r c = avgDiff g' rows cols r c := by
      unfold avgDiff diffSum nbrCount
      rw [hnb, hcen]
    unfold enhanceCell
    rw [havg, hcen, hnb]

/-- Witness for C9's locality part: two grids agreeing at the center and
neighbors of `(0, 0)` in a 1×1 grid enhance identically there, and the
shape facts at a concrete grid. -/
theorem c9_enhancer_fresh_and_local_witness :
    (enhancedGrid (fun _ _ => red) 1 1).length = 1 ∧
    enhanceCell (fun _ _ => red) 1 1 0 0 =
      enhanceCell (fun _ _ => if 0 < (0:ℕ) then blue else red) 1 1 0 0 :=
  ⟨c9_enhancer_fresh_and_local.1 (fun _ _ => red) 1 1,
    c9_enhancer_fresh_and_local.2.2.2 (fun _ _ => red)
      (fun _ _ => if 0 < (0:ℕ) then blue else red) 1 1 0 0 (by decide)
      (fun h => absurd h (by decide)) (fun h => absurd h (by decide))
      (fun h => absurd h (by decide)) (fun h => absurd h (by decide))⟩

/-! ### Brightness monotonicity (C7) -/

lemma clamp255_mono {x y : ℚ} (h : x ≤ y) : clamp255 x ≤ clamp255 y := by
  unfold clamp255
  exact min_le_min (le_refl _) (max_le_max (le_refl _) h)

lemma blockSum_mono (img : Img) (cw ch targetW targetH : ℕ) (b1 b2 : ℚ)
    (hb : b1 ≤ b2) (f : RGB → ℚ) (r c : ℕ) :
    blockSum img cw ch targetW targetH b1 f r c ≤
      blockSum img cw ch targetW targetH b2 f r c := by
  unfold blockSum
  refine Finset.sum_le_sum fun y _ => Finset.sum_le_sum fun x _ => ?_
  exact clamp255_mono (by linarith)

lemma bOffset_step_le (level : ℤ) : bOffset level ≤ bOffset (level + 1) := by
  unfold bOffset
  push_cast
  linarith

/-- C7 (amended): for nearest and average sampling the clamped per-channel
cell value is monotonically nondecreasing in the brightness level — each
step adds a constant `+15` per channel before clamping. (The
gradient-enhanced post-pass, by contrast, can decrease a channel; see the
counterexample.) -/
theorem c7_sampled_monotone_amended :
    (∀ (data : Img) (level : ℤ) (r c : ℕ),
      rgbLe (nearestCell data (bOffset level) r c)
        (nearestCell data (bOffset (level + 1)) r c)) ∧
    (∀ (img : Img) (cw ch targetW targetH : ℕ) (level : ℤ) (r c : ℕ),
      rgbLe (avgCell img cw ch targetW targetH (bOffset level) r c)
        (avgCell img cw ch targetW targetH (bOffset (level + 1)) r c)) := by
  constructor
  · intro data level r c
    have hb := bOffset_step_le level
    unfold nearestCell rgbLe
    exact ⟨clamp255_mono (by linarith), clamp255_mono (by linarith),
      clamp255_mono (by linarith)⟩
  · intro img cw ch targetW targetH level r c
    have hb := bOffset_step_le level
    have hd : (0 : ℚ) < (if blockCount cw ch targetW targetH r c = 0 then 1
        else ((blockCount cw ch targetW targetH r c : ℕ) : ℚ)) := by
      split_ifs with h
      · norm_num
      · exact_mod_cast Nat.pos_of_ne_zero h
    simp only [avgCell, rgbLe]
    refine ⟨?_, ?_, ?_⟩ <;>
      exact (div_le_div_iff_of_pos_right hd).mpr
        (blockSum_mono img cw ch targetW targetH _ _ hb _ r c)

/-- The 6×3 source image of the C7 counterexample: the center block of the
3×3 target mixes a saturated and a black pixel, its neighbors are mid gray. -/
def imgC7 : Img := fun y x =>
  if y = 1 ∧ x = 2 then ⟨255, 255, 255⟩
  else if y = 1 ∧ x = 3 then ⟨0, 0, 0⟩
  else ⟨100, 100, 100⟩

/-- C7 (counterexample to the claim as stated): under the
`gradient_enhanced` strategy the value passed to palette resolution at cell
`(1, 1)` strictly decreases on every channel when the brightness level steps
from 0 to 1 (160.5 down to 159): the center block's saturated pixel clamps
while the neighbors rise by the full 15, and the negative kernel weights
outweigh the center's smaller gain. -/
theorem c7_counterexample :
    ¬ rgbLe
      (enhanceCell (fun r c => avgCell imgC7 6 3 3 3 (bOffset 0) r c) 3 3 1 1)
      (enhanceCell (fun r c => avgCell imgC7 6 3 3 3 (bOffset 1) r c)
        3 3 1 1) := by
  decide

/-! ### Legend statistics (`drawPattern`, draw_utils.ts lines 13–27) -/

/-- A resolved palette entry as the renderer consumes it: a short code and a
display RGB triple; cells are compared by `code`. -/
structure ColorInfo where
  code : String
  rgb : ℕ × ℕ × ℕ
deriving DecidableEq

/-- One step of the statistics accumulation (draw_utils lines 20–24): a
first-seen code is inserted at the end of the map (with count 0, then
immediately incremented, hence 1); an existing code's count is incremented
in place. JavaScript `Map` iterates in insertion order. -/
def bump (acc : List (ColorInfo × ℕ)) (cell : ColorInfo) :
    List (ColorInfo × ℕ) :=
  if acc.any (fun p => p.1.code == cell.code) then
    acc.map (fun p => if p.1.code == cell.code then (p.1, p.2 + 1) else p)
  else acc ++ [(cell, 1)]

/-- The insertion-ordered `statsMap` contents after the row-major scan
(draw_utils lines 17–26). -/
def tally (cells : List ColorInfo) : List (ColorInfo × ℕ) :=
  cells.foldl bump []

/-- `Array.from(statsMap.values()).sort((a, b) => b.count - a.count)`
(draw_utils line 27): ECMAScript `sort` is stable, and insertion sort with
the total preorder `b.count ≤ a.count` is exactly the stable descending
sort for that comparator. -/
def sortStats (l : List (ColorInfo × ℕ)) : List (ColorInfo × ℕ) :=
  l.insertionSort (fun a b => b.2 ≤ a.2)

/-- The legend statistics computed by `drawPattern` for a row-major grid. -/
def statsOf (grid : List (List ColorInfo)) : List (ColorInfo × ℕ) :=
  sortStats (tally grid.flatten)

/-- The codes of a statistics list, in order. -/
def keys (l : List (ColorInfo × ℕ)) : List String :=
  l.map (fun p => p.1.code)

/-- Number of occurrences of code `s` among the scanned cells. -/
def countOcc (cells : List ColorInfo) (s : String) : ℕ :=
  cells.countP (fun c => c.code == s)

/-- Index of the first cell carrying code `s` in the row-major scan. -/
def firstIdx (cells : List ColorInfo) (s : String) : ℕ :=
  cells.findIdx (fun c => c.code == s)

/-- Code-A entry of the spec's legend example. -/
def cA : ColorInfo := ⟨"A", (10, 20, 30)⟩

/-- Code-B entry of the spec's legend example. -/
def cB : ColorInfo := ⟨"B", (40, 50, 60)⟩

/-- Code-C entry of the spec's legend example. -/
def cC : ColorInfo := ⟨"C", (70, 80, 90)⟩

/-- A grid realizing the legend example: codes `{A:5, B:3, C:3}` first seen
in order `A, C, B` during the row-major scan. -/
def exampleGrid : List (List ColorInfo) :=
  [[cA, cA, cA, cA, cA, cC, cC, cC, cB, cB, cB]]

lemma tally_append (l : List ColorInfo) (x : ColorInfo) :
    tally (l ++ [x]) = bump (tally l) x := by
  unfold tally
  rw [List.foldl_append]
  rfl

/-- The in-place increment of `bump` never changes the key sequence. -/
lemma keys_map_bump (acc : List (ColorInfo × ℕ)) (s : String) :
    keys (acc.map (fun p => if p.1.code == s then (p.1, p.2 + 1) else p)) =
      keys acc := by
  unfold keys
  rw [List.map_map]
  apply List.map_congr_left
  intro p _
  by_cases h : p.1.code == s
  · simp only [Function.comp_apply, if_pos h]
  · simp only [Function.comp_apply, if_neg h]

lemma any_code_iff (acc : List (ColorInfo × ℕ)) (s : String) :
    acc.any (fun p => p.1.code == s) = true ↔ s ∈ keys acc := by
  simp [keys, List.any_eq_true, List.mem_map]

/-- A code appears in the tally exactly when some scanned cell carries it. -/
lemma mem_keys_tally (l : List ColorInfo) (s : String) :
    s ∈ keys (tally l) ↔ ∃ cell ∈ l, cell.code = s := by
  induction l using List.reverseRecOn generalizing s with
  | nil => simp [tally, keys]
  | append_singleton l x ih =>
    rw [tally_append]
    unfold bump
    split_ifs with hany
    · rw [keys_map_bump, ih s]
      have hxmem : ∃ cell ∈ l, cell.code = x.code :=
        (ih x.code).mp ((any_code_iff (tally l) x.code).mp hany)
      constructor
      · rintro ⟨cell, hcell, he⟩
        exact ⟨cell, List.mem_append_left _ hcell, he⟩
      · rintro ⟨cell, hcell, he⟩
        rcases List.mem_append.mp hcell with hcell | hcell
        · exact ⟨cell, hcell, he⟩
        · have hx : cell = x := by simpa using hcell
          subst hx
          subst he
          exact hxmem
    · have hk : keys (tally l ++ [(x, 1)]) = keys (tally l) ++ [x.code] := by
        unfold keys
        rw [List.map_append]
        rfl
      rw [hk, List.mem_append, ih s, List.mem_singleton]
      constructor
      · rintro (⟨cell, hcell, he⟩ | hs)
        · exact ⟨cell, List.mem_append_left _ hcell, he⟩
        · exact ⟨x, List.mem_append_right _ (List.mem_singleton_self x), hs.symm⟩
      · rintro ⟨cell, hcell, he⟩
        rcases List.mem_append.mp hcell with hcell | hcell
        · exact Or.inl ⟨cell, hcell, he⟩
        · have hx : cell = x := by simpa using hcell
          subst hx
          exact Or.inr he.symm

/-- The tally's key sequence has no duplicates. -/
lemma keys_tally_nodup (l : List ColorInfo) : (keys (tally l)).Nodup := by
  induction l using List.reverseRecOn with
  | nil => simp [tally, keys]
  | append_singleton l x ih =>
    rw [tally_append]
    unfold bump
    split_ifs with hany
    · rw [keys_map_bump]
      exact ih
    · have hk : keys (tally l ++ [(x, 1)]) = keys (tally l) ++ [x.code] := by
        unfold keys
        rw [List.map_append]
        rfl
      have hnotin : x.code ∉ keys (tally l) := fun hmem =>
        hany ((any_code_iff (tally l) x.code).mpr hmem)
      rw [hk, List.nodup_append]
      exact ⟨ih, List.nodup_singleton _, by
        intro s hs hs2
        have hsx : s = x.code := by simpa using hs2
        subst hsx
        exact hnotin hs⟩

lemma countOcc_append (l : List ColorInfo) (x : ColorInfo) (s : String) :
    countOcc (l ++ [x]) s = countOcc l s + if x.code == s then 1 else 0 := by
  unfold countOcc
  rw [List.countP_append]
  simp [List.countP_cons]

/-- Every tally entry's count is the number of occurrences of its code in
the scan so far. -/
lemma tally_count (l : List ColorInfo) :
    ∀ p ∈ tally l, p.2 = countOcc l p.1.code := by
  induction l using List.reverseRecOn with
  | nil =>
    intro p hp
    simp [tally] at hp
  | append_singleton l x ih =>
    rw [tally_append]
    intro p hp
    unfold bump at hp
    split_ifs at hp with hany
    · rcases List.mem_map.mp hp with ⟨q, hq, hpq⟩
      by_cases hqx : (q.1.code == x.code) = true
      · rw [if_pos hqx] at hpq
        subst hpq
        have he : q.1.code = x.code := by simpa using hqx
        rw [countOcc_append]
        have hif : (x.code == q.1.code) = true := by simp [he]
        simp [hif, ih q hq]
      · rw [if_neg hqx] at hpq
        subst hpq
        rw [countOcc_append]
        have hif : (x.code == q.1.code) = false := by
          simp only [beq_eq_false_iff_ne, ne_eq]
          intro h
          exact hqx (by simp [h])
        simp [hif, ih q hq]
    · rcases List.mem_append.mp hp with hp | hp
      · have hkey : p.1.code ∈ keys (tally l) := List.mem_map_of_mem _ hp
        have hne : x.code ≠ p.1.code := by
          intro h
          exact hany ((any_code_iff _ _).mpr (h ▸ hkey))
        rw [countOcc_append]
        have hif : (x.code == p.1.code) = false := by
          simpa using hne
        simp [hif, ih p hp]
      · have hpx : p = (x, 1) := by simpa using hp
        subst hpx
        rw [countOcc_append]
        have hz : countOcc l x.code = 0 := by
          by_contra hnz
          have hpos : 0 < countOcc l x.code := Nat.pos_of_ne_zero hnz
          unfold countOcc at hpos
          rcases List.countP_pos_iff.mp hpos with ⟨cell, hcell, hc⟩
          exact hany ((any_code_iff _ _).mpr
            ((mem_keys_tally l x.code).mpr ⟨cell, hcell, by simpa using hc⟩))
        simp [hz]

lemma sum_map_add_nat (l : List (ColorInfo × ℕ))
    (f g : ColorInfo × ℕ → ℕ) :
    (l.map (fun p => f p + g p)).sum = (l.map f).sum + (l.map g).sum := by
  induction l with
  | nil => simp
  | cons x xs ih =>
    simp only [List.map_cons, List.sum_cons, ih]
    omega

lemma sum_indicator_eq_countP (l : List (ColorInfo × ℕ))
    (q : ColorInfo × ℕ → Bool) :
    (l.map (fun p => if q p then 1 else 0)).sum = l.countP q := by
  induction l with
  | nil => simp
  | cons x xs ih =>
    by_cases h : q x <;>
      simp [List.countP_cons, h, ih, Nat.add_comm]

/-- With duplicate-free keys, exactly one entry matches a present code. -/
lemma countP_key_eq_one (acc : List (ColorInfo × ℕ)) (s : String)
    (hnd : (keys acc).Nodup) (hmem : s ∈ keys acc) :
    acc.countP (fun p => p.1.code == s) = 1 := by
  induction acc with
  | nil => simp [keys] at hmem
  | cons p acc ih =>
    have hnd' : (keys acc).Nodup := by
      unfold keys at hnd ⊢
      exact (List.nodup_cons.mp hnd).2
    have hnotin : p.1.code ∉ keys acc := by
      unfold keys at hnd ⊢
      exact (List.nodup_cons.mp hnd).1
    rcases List.mem_cons.mp
        (by simpa only [keys, List.map_cons] using hmem) with hs | hs
    · subst hs
      have hzero : acc.countP (fun q => q.1.code == p.1.code) = 0 := by
        rw [List.countP_eq_zero]
        intro q hq hbeq
        exact hnotin (by
          have : q.1.code = p.1.code := by simpa using hbeq
          exact this ▸ List.mem_map_of_mem _ hq)
      rw [List.countP_cons]
      simp [hzero]
    · have hne : p.1.code ≠ s := fun h => hnotin (h ▸ hs)
      rw [List.countP_cons]
      simp [ih hnd' hs, hne]

/-- The tally's counts sum to the number of scanned cells. -/
lemma tally_sum (l : List ColorInfo) :
    ((tally l).map (fun p => p.2)).sum = l.length := by
  induction l using List.reverseRecOn with
  | nil => simp [tally]
  | append_singleton l x ih =>
    rw [tally_append]
    unfold bump
    split_ifs with hany
    · rw [List.map_map]
      have hcong : (tally l).map
          ((fun p : ColorInfo × ℕ => p.2) ∘
            (fun p => if p.1.code == x.code then (p.1, p.2 + 1) else p)) =
          (tally l).map
            (fun p => p.2 + if p.1.code == x.code then 1 else 0) := by
        apply List.map_congr_left
        intro p _
        simp only [Function.comp_apply]
        split_ifs with h
        · rfl
        · simp
      rw [hcong, sum_map_add_nat]
      have hone : ((tally l).map
          (fun p => if p.1.code == x.code then 1 else 0)).sum = 1 := by
        rw [sum_indicator_eq_countP]
        exact countP_key_eq_one (tally l) x.code (keys_tally_nodup l)
          ((any_code_iff _ _).mp hany)
      rw [hone, ih]
      simp
    · rw [List.map_append]
      simp [ih]

lemma firstIdx_append_of_mem (l l₂ : List ColorInfo) (s : String)
    (h : ∃ cell ∈ l, cell.code = s) :
    firstIdx (l ++ l₂) s = firstIdx l s := by
  induction l with
  | nil => simp at h
  | cons a l ih =>
    unfold firstIdx at ih ⊢
    rw [List.cons_append, List.findIdx_cons, List.findIdx_cons]
    cases ha : (a.code == s) with
    | true => simp
    | false =>
      simp only [cond_false]
      rcases h with ⟨cell, hcell, he⟩
      rcases List.mem_cons.mp hcell with hcell | hcell
      · subst hcell
        exact absurd (by simp [he] : (cell.code == s) = true) (by simp [ha])
      · rw [ih ⟨cell, hcell, he⟩]

lemma firstIdx_lt_length (l : List ColorInfo) (s : String)
    (h : ∃ cell ∈ l, cell.code = s) : firstIdx l s < l.length := by
  unfold firstIdx
  apply List.findIdx_lt_length_of_exists
  rcases h with ⟨cell, hcell, he⟩
  exact ⟨cell, hcell, by simp [he]⟩

lemma firstIdx_append_new (l : List ColorInfo) (x : ColorInfo) (s : String)
    (h : ∀ cell ∈ l, cell.code ≠ s) (hx : x.code = s) :
    firstIdx (l ++ [x]) s = l.length := by
  induction l with
  | nil =>
    unfold firstIdx
    simp [List.findIdx_cons, hx]
  | cons a l ih =>
    unfold firstIdx at ih ⊢
    have ha : (a.code == s) = false := by
      simpa using h a (List.mem_cons_self a l)
    rw [List.cons_append, List.findIdx_cons, ha]
    simp only [cond_false, List.length_cons]
    rw [ih (fun cell hc => h cell (List.mem_cons_of_mem a hc))]

/-- The tally lists codes in the order of their first occurrence in the
scan: earlier entries have strictly smaller first-occurrence indices. -/
lemma tally_pairwise_firstIdx (l : List ColorInfo) :
    (tally l).Pairwise
      (fun p q => firstIdx l p.1.code < firstIdx l q.1.code) := by
  induction l using List.reverseRecOn with
  | nil => simp [tally]
  | append_singleton l x ih =>
    rw [tally_append]
    have htrans : (tally l).Pairwise
        (fun p q => firstIdx (l ++ [x]) p.1.code <
          firstIdx (l ++ [x]) q.1.code) := by
      refine ih.imp_of_mem ?_
      intro p q hp hq hlt
      have hpmem : ∃ cell ∈ l, cell.code = p.1.code :=
        (mem_keys_tally l _).mp (List.mem_map_of_mem _ hp)
      have hqmem : ∃ cell ∈ l, cell.code = q.1.code :=
        (mem_keys_tally l _).mp (List.mem_map_of_mem _ hq)
      rw [firstIdx_append_of_mem l [x] _ hpmem,
        firstIdx_append_of_mem l [x] _ hqmem]
      exact hlt
    unfold bump
    split_ifs with hany
    · refine List.Pairwise.map _ ?_ htrans
      intro p q hlt
      have hp : ((if p.1.code == x.code then (p.1, p.2 + 1) else p) :
          ColorInfo × ℕ).1.code = p.1.code := by
        split_ifs <;> rfl
      have hq : ((if q.1.code == x.code then (q.1, q.2 + 1) else q) :
          ColorInfo × ℕ).1.code = q.1.code := by
        split_ifs <;> rfl
      rw [hp, hq]
      exact hlt
    · rw [List.pairwise_append]
      refine ⟨htrans, by simp, ?_⟩
      intro p hp q hq
      have hqx : q = (x, 1) := by simpa using hq
      subst hqx
      have hpmem : ∃ cell ∈ l, cell.code = p.1.code :=
        (mem_keys_tally l _).mp (List.mem_map_of_mem _ hp)
      have hxnew : ∀ cell ∈ l, cell.code ≠ x.code := by
        intro cell hc he
        exact hany ((any_code_iff _ _).mpr
          ((mem_keys_tally l x.code).mpr ⟨cell, hc, he⟩))
      rw [firstIdx_append_of_mem l [x] _ hpmem,
        firstIdx_append_new l x _ hxnew rfl]
      exact firstIdx_lt_length l _ hpmem

instance : IsTotal (ColorInfo × ℕ) (fun a b => b.2 ≤ a.2) :=
  ⟨fun a b => Nat.le_total b.2 a.2⟩

instance : IsTrans (ColorInfo × ℕ) (fun a b => b.2 ≤ a.2) :=
  ⟨fun _ _ _ hab hbc => le_trans hbc hab⟩

/-- Inserting into any list does not disturb the entries of a fixed count
class other than adding the new entry in front when it belongs to it:
the passed-over prefix consists of strictly larger counts. -/
lemma filter_orderedInsert (k : ℕ) (x : ColorInfo × ℕ)
    (l : List (ColorInfo × ℕ)) :
    (List.orderedInsert (fun a b => b.2 ≤ a.2) x l).filter
        (fun p => p.2 == k) =
      if x.2 = k then x :: l.filter (fun p => p.2 == k)
      else l.filter (fun p => p.2 == k) := by
  induction l with
  | nil =>
    rw [List.orderedInsert]
    by_cases hx : x.2 = k <;> simp [List.filter_cons, hx]
  | cons y ys ih =>
    rw [List.orderedInsert]
    split_ifs with hr hx hx2
    · -- y.2 ≤ x.2 and x.2 = k: x goes in front
      simp [List.filter_cons, hx]
    · -- y.2 ≤ x.2 and x.2 ≠ k: x is filtered away
      simp [List.filter_cons, hx]
    · -- x.2 < y.2 and x.2 = k: y has a strictly larger count, so it is not
      -- in the k-class; recurse past it
      have hyk : ¬ (y.2 == k) = true := by
        simp only [beq_iff_eq]
        omega
      simp only [List.filter_cons, if_neg hyk]
      rw [ih, if_pos hx2]
    · -- x.2 < y.2 and x.2 ≠ k
      simp only [List.filter_cons]
      rw [ih, if_neg hx2]

/-- The sort of the legend is stable: each count class keeps its tally
(insertion) order. -/
lemma filter_sortStats (k : ℕ) (l : List (ColorInfo × ℕ)) :
    (sortStats l).filter (fun p => p.2 == k) =
      l.filter (fun p => p.2 == k) := by
  unfold sortStats
  induction l with
  | nil => rfl
  | cons x xs ih =>
    rw [List.insertionSort, filter_orderedInsert]
    by_cases hx : x.2 = k
    · rw [if_pos hx, ih]
      have hxb : (x.2 == k) = true := by simp [hx]
      simp [List.filter_cons, hxb]
    · rw [if_neg hx, ih]
      have hxb : (x.2 == k) = false := by simp [hx]
      simp [List.filter_cons, hxb]

/-- C6: for every non-empty resolved grid the legend has exactly one entry
per distinct code carrying its occurrence count, sorted by descending
count, entries of equal count appearing in the order their codes were first
encountered in the row-major scan — and the `{A:5, C:3, B:3}` example comes
out as `A, C, B`. -/
theorem c6_legend_order (grid : List (List ColorInfo)) (_hne : grid ≠ []) :
    ((statsOf grid).map (fun p => p.1.code)).Nodup ∧
    (∀ s : String, (∃ p ∈ statsOf grid, p.1.code = s) ↔
      (∃ cell ∈ grid.flatten, cell.code = s)) ∧
    (∀ p ∈ statsOf grid, p.2 = countOcc grid.flatten p.1.code) ∧
    (statsOf grid).Pairwise (fun p q => q.2 ≤ p.2) ∧
    (statsOf grid).Pairwise (fun p q => p.2 = q.2 →
      firstIdx grid.flatten p.1.code < firstIdx grid.flatten q.1.code) ∧
    statsOf exampleGrid = [(cA, 5), (cC, 3), (cB, 3)] := by
  have hperm : List.Perm (statsOf grid) (tally grid.flatten) :=
    List.perm_insertionSort _ _
  refine ⟨?_, ?_, ?_, ?_, ?_, by decide⟩
  · have hkeys : List.Perm ((statsOf grid).map (fun p => p.1.code))
        ((tally grid.flatten).map (fun p => p.1.code)) := hperm.map _
    exact hkeys.nodup_iff.mpr (keys_tally_nodup grid.flatten)
  · intro s
    constructor
    · rintro ⟨p, hp, he⟩
      exact (mem_keys_tally grid.flatten s).mp
        (he ▸ List.mem_map_of_mem _ (hperm.mem_iff.mp hp))
    · intro h
      rcases List.mem_map.mp ((mem_keys_tally grid.flatten s).mpr h) with
        ⟨p, hp, he⟩
      exact ⟨p, hperm.mem_iff.mpr hp, he⟩
  · intro p hp
    exact tally_count grid.flatten p (hperm.mem_iff.mp hp)
  · exact List.sorted_insertionSort _ _
  · rw [List.pairwise_iff_forall_sublist]
    intro p q hsub hpq
    have h1 : [p, q].filter (fun z => z.2 == p.2) = [p, q] := by
      have hp2 : (p.2 == p.2) = true := by simp
      have hq2 : (q.2 == p.2) = true := by simp [hpq]
      simp [List.filter_cons, hp2, hq2]
    have h2 : List.Sublist [p, q]
        ((statsOf grid).filter (fun z => z.2 == p.2)) := by
      rw [← h1]
      exact hsub.filter _
    unfold statsOf at h2
    rw [filter_sortStats] at h2
    have h3 : List.Sublist [p, q] (tally grid.flatten) :=
      h2.trans (List.filter_sublist _)
    exact List.pairwise_iff_forall_sublist.mp
      (tally_pairwise_firstIdx grid.flatten) h3

/-- Witness for C6 at the example grid. -/
theorem c6_legend_order_witness :
    exampleGrid ≠ [] ∧ statsOf exampleGrid = [(cA, 5), (cC, 3), (cB, 3)] :=
  ⟨by decide, (c6_legend_order exampleGrid (by decide)).2.2.2.2.2⟩

/-- C10: for a non-empty `rows × cols` grid, every legend count is at least
1, each distinct code appears in exactly one entry, and the counts sum to
`rows * cols`. -/
theorem c10_legend_count_invariants (grid : List (List ColorInfo))
    (rows cols : ℕ) (hrows : grid.length = rows) (_hpos : 0 < rows)
    (hcols : ∀ row ∈ grid, row.length = cols) :
    (∀ p ∈ statsOf grid, 1 ≤ p.2) ∧
    ((statsOf grid).map (fun p => p.1.code)).Nodup ∧
    (∀ cell ∈ grid.flatten, ∃ p ∈ statsOf grid, p.1.code = cell.code) ∧
    ((statsOf grid).map (fun p => p.2)).sum = rows * cols := by
  have hperm : List.Perm (statsOf grid) (tally grid.flatten) :=
    List.perm_insertionSort _ _
  refine ⟨?_, ?_, ?_, ?_⟩
  · intro p hp
    have hpt := hperm.mem_iff.mp hp
    have hcnt := tally_count grid.flatten p hpt
    have hkey : p.1.code ∈ keys (tally grid.flatten) :=
      List.mem_map_of_mem _ hpt
    rcases (mem_keys_tally grid.flatten p.1.code).mp hkey with
      ⟨cell, hcell, he⟩
    have hposc : 0 < countOcc grid.flatten p.1.code := by
      unfold countOcc
      exact List.countP_pos_iff.mpr ⟨cell, hcell, by simp [he]⟩
    omega
  · exact (hperm.map _).nodup_iff.mpr (keys_tally_nodup grid.flatten)
  · intro cell hcell
    rcases List.mem_map.mp ((mem_keys_tally grid.flatten cell.code).mpr
      ⟨cell, hcell, rfl⟩) with ⟨p, hp, he⟩
    exact ⟨p, hperm.mem_iff.mpr hp, he⟩
  · have hsum : ((statsOf grid).map (fun p => p.2)).sum =
        ((tally grid.flatten).map (fun p => p.2)).sum :=
      (hperm.map _).sum_eq
    rw [hsum, tally_sum]
    rw [List.length_flatten]
    have hmap : grid.map List.length = grid.map (fun _ => cols) :=
      List.map_congr_left hcols
    rw [hmap, List.map_const', List.sum_replicate, smul_eq_mul, hrows]

/-- Witness for C10 at the example 1×11 grid: the completeness conjunct at
the first cell, and the counts-sum conjunct. -/
theorem c10_legend_count_invariants_witness :
    exampleGrid.length = 1 ∧ 0 < 1 ∧
    (∀ row ∈ exampleGrid, row.length = 11) ∧
    cA ∈ exampleGrid.flatten ∧
    (∃ p ∈ statsOf exampleGrid, p.1.code = cA.code) ∧
    ((statsOf exampleGrid).map (fun p => p.2)).sum = 1 * 11 :=
  ⟨by decide, by decide, by decide, by decide,
    (c10_legend_count_invariants exampleGrid 1 11 (by decide) (by decide)
      (by decide)).2.2.1 cA (by decide),
    (c10_legend_count_invariants exampleGrid 1 11 (by decide) (by decide)
      (by decide)).2.2.2⟩

end DouPinPin
